import Mathlib

/-!
# Verification of the YehudaOS usermode shell and runtime helpers

Shallow embedding of `src/usermode/shell.c` and
`src/usermode/yehuda-os/helpers.c`.  C strings are modelled as `List Char`
(the characters before the terminating NUL); C pointers into a string are
modelled as the suffix they point to.  Heap allocations are given sequential
numeric identifiers and allocation success is an oracle `Nat → Bool`, so that
allocation-failure paths and resource lifetimes can be stated exactly.
-/

namespace YehudaOS

/-- `count_words` from `shell.c`: the scanning loop, carrying the `in_word`
flag and the running `count`. -/
def count_words_loop : List Char → Bool → Nat → Nat
  | [], _, count => count
  | c :: rest, in_word, count =>
    if c = ' ' then
      count_words_loop rest false count
    else if !in_word then
      count_words_loop rest true (count + 1)
    else
      count_words_loop rest in_word count

/-- `count_words(str)` from `shell.c`: number of maximal space-free runs. -/
def count_words (str : List Char) : Nat :=
  count_words_loop str false 0

/-- Specification-side splitter: the list of maximal space-free runs of a
line, left to right.  `cur` is the run currently being accumulated. -/
def wordsAux : List Char → List Char → List (List Char)
  | [], cur => if cur.isEmpty then [] else [cur]
  | c :: rest, cur =>
    if c = ' ' then
      if cur.isEmpty then wordsAux rest [] else cur :: wordsAux rest []
    else
      wordsAux rest (cur ++ [c])

/-- The maximal space-free runs of `line`, in left-to-right order. -/
def wordsOf (line : List Char) : List (List Char) :=
  wordsAux line []

/-- State of the `parse_command` loop.  `words` is the `calloc`ed array
(entries are `none` for NULL or `some (id, w)` for a pointer with allocation
id `id` to string `w`); `start` is the `start` pointer (a suffix of the
input); `nid` is the id the next `malloc` would get; `allocd` lists every id
allocated so far; `oob` records whether a write past the end of `words`
occurred. -/
structure ParseSt where
  words : List (Option (Nat × List Char))
  count : Nat
  word_len : Nat
  in_word : Bool
  start : List Char
  nid : Nat
  allocd : List Nat
  oob : Bool
  deriving Repr, DecidableEq

/-- The word-flushing block of `parse_command` (`malloc` + `strncpy` +
terminator + bookkeeping), shared by the space case and the final flush.
Returns `none` when the `malloc` fails. -/
def flush_word (alloc : Nat → Bool) (s : ParseSt) : Option ParseSt :=
  if alloc s.nid then
    let w := s.start.take s.word_len
    if s.count < s.words.length then
      some { s with
        words := s.words.set s.count (some (s.nid, w)),
        count := s.count + 1, word_len := 0, in_word := false,
        nid := s.nid + 1, allocd := s.allocd ++ [s.nid] }
    else
      some { s with
        oob := true,
        count := s.count + 1, word_len := 0, in_word := false,
        nid := s.nid + 1, allocd := s.allocd ++ [s.nid] }
  else
    none

/-- The main scanning loop of `parse_command`.  `inl` is normal loop exit;
`inr` is the state at the point an allocation failed (before cleanup). -/
def parse_loop (alloc : Nat → Bool) : List Char → ParseSt → ParseSt ⊕ ParseSt
  | [], s => .inl s
  | c :: rest, s =>
    if c = ' ' then
      if s.in_word then
        match flush_word alloc s with
        | some s' => parse_loop alloc rest s'
        | none => .inr s
      else
        parse_loop alloc rest s
    else
      if !s.in_word then
        parse_loop alloc rest
          { s with in_word := true, start := c :: rest, word_len := s.word_len + 1 }
      else
        parse_loop alloc rest { s with word_len := s.word_len + 1 }

/-- `free_array(words, size)` from `helpers.c`, as the list of allocation ids
it frees: for each index `i < size`, the id stored in `words[i]` (freeing
NULL is a no-op). -/
def free_array_ids (words : List (Option (Nat × List Char))) (size : Nat) : List Nat :=
  (List.range size).filterMap fun i =>
    match words[i]? with
    | some (some (id, _)) => some id
    | _ => none

/-- Allocation ids still live after the failure cleanup of `parse_command`:
everything allocated minus `free_array(words, count)` and `free(words)`
(the array itself has id 0). -/
def live_after_cleanup (s : ParseSt) : List Nat :=
  s.allocd.filter fun id => ¬ (0 :: free_array_ids s.words s.count).contains id

/-- `parse_command(command)` from `shell.c`.  Returns the resulting array (or
`none` on allocation failure), the list of allocation ids still live when it
returns, and the out-of-bounds-write flag.  Allocation id 0 is the `calloc`ed
array; word buffers get ids 1, 2, …  On success every allocation is live
(ownership passes to the caller). -/
def parse_command (alloc : Nat → Bool) (command : List Char) :
    Option (List (Option (Nat × List Char))) × List Nat × Bool :=
  if alloc 0 then
    let init : ParseSt :=
      { words := List.replicate (count_words command + 1) none,
        count := 0, word_len := 0, in_word := false,
        start := [], nid := 1, allocd := [0], oob := false }
    match parse_loop alloc command init with
    | .inl s =>
      if s.word_len > 0 then
        match flush_word alloc s with
        | some s' => (some s'.words, s'.allocd, s'.oob)
        | none => (none, live_after_cleanup s, s.oob)
      else
        (some s.words, s.allocd, s.oob)
    | .inr s => (none, live_after_cleanup s, s.oob)
  else
    (none, [], false)

/-- Reading a returned word array the way its consumers do: the words before
the first NULL entry. -/
def tokensOf : List (Option (Nat × List Char)) → List (List Char)
  | [] => []
  | none :: _ => []
  | some (_, w) :: rest => w :: tokensOf rest

/-- The all-allocations-succeed oracle. -/
def allocTrue : Nat → Bool := fun _ => true

/-- The filled portion of the word array: tokens `ts` become consecutive
`some` entries whose allocation ids continue from `n + 1`. -/
def fillFrom : Nat → List (List Char) → List (Option (Nat × List Char))
  | _, [] => []
  | n, w :: ws => some (n + 1, w) :: fillFrom (n + 1) ws

theorem fillFrom_length (n : Nat) (ts : List (List Char)) :
    (fillFrom n ts).length = ts.length := by
  induction ts generalizing n with
  | nil => rfl
  | cons w ws ih => simp [fillFrom, ih]

theorem fillFrom_snoc (n : Nat) (ts : List (List Char)) (w : List Char) :
    fillFrom n (ts ++ [w]) = fillFrom n ts ++ [some (n + ts.length + 1, w)] := by
  induction ts generalizing n with
  | nil => simp [fillFrom]
  | cons t ts ih =>
    simp only [List.cons_append, fillFrom, List.length_cons, List.append_eq]
    rw [ih (n + 1)]
    have h3 : n + 1 + ts.length + 1 = n + (ts.length + 1) + 1 := by omega
    rw [h3]

theorem fillFrom_getElem? (n : Nat) (ts : List (List Char)) (i : Nat)
    (h : i < ts.length) :
    ∃ w, w ∈ ts ∧ (fillFrom n ts)[i]? = some (some (n + i + 1, w)) := by
  induction ts generalizing n i with
  | nil => simp at h
  | cons t ts ih =>
    cases i with
    | zero => exact ⟨t, by simp, by simp [fillFrom]⟩
    | succ j =>
      obtain ⟨w, hw, hget⟩ := ih (n + 1) j (by simpa using h)
      refine ⟨w, by simp [hw], ?_⟩
      simpa [fillFrom, Nat.add_assoc, Nat.add_comm, Nat.add_left_comm] using hget

theorem set_append_cons {α : Type} (xs : List α) (y : α) (ys : List α) (v : α) :
    (xs ++ y :: ys).set xs.length v = xs ++ v :: ys := by
  induction xs with
  | nil => rfl
  | cons x xs ih => simp [List.set, ih]

theorem tokensOf_fillFrom (n : Nat) (ts : List (List Char))
    (zs : List (Option (Nat × List Char))) :
    tokensOf (fillFrom n ts ++ none :: zs) = ts := by
  induction ts generalizing n with
  | nil => rfl
  | cons t ts ih => simp [fillFrom, tokensOf, ih]

theorem filterMap_range_eq_map (f : Nat → Option Nat) (g : Nat → Nat) (n : Nat)
    (h : ∀ i, i < n → f i = some (g i)) :
    (List.range n).filterMap f = (List.range n).map g := by
  induction n with
  | zero => rfl
  | succ m ih =>
    have hr : List.range (m + 1) = List.range m ++ [m] := by
      simpa using List.range_succ (n := m)
    rw [hr, List.filterMap_append, List.map_append,
      ih (fun i hi => h i (Nat.lt_succ_of_lt hi))]
    simp [List.filterMap, h m (Nat.lt_succ_self m)]

theorem count_words_loop_succ (rest : List Char) (b : Bool) (c : Nat) :
    count_words_loop rest b (c + 1) = count_words_loop rest b c + 1 := by
  induction rest generalizing b c with
  | nil => rfl
  | cons x xs ih =>
    by_cases hx : x = ' ' <;> cases b <;> simp [count_words_loop, hx, ih]

/-- Loop invariant of `parse_loop`: `done` are the words already flushed into
the array, `cur` is the run currently being scanned, `rest` the unread
suffix of the input. -/
structure Inv (done : List (List Char)) (cur : List Char) (rest : List Char)
    (s : ParseSt) : Prop where
  hwords : s.words = fillFrom 0 done ++
    List.replicate
      ((if s.in_word then 1 else 0) + count_words_loop rest s.in_word 0 + 1) none
  hcount : s.count = done.length
  hnid : s.nid = done.length + 1
  hallocd : s.allocd = List.range (done.length + 1)
  hw_t : s.in_word = true → s.start = cur ++ rest ∧ s.word_len = cur.length ∧ cur ≠ []
  hw_f : s.in_word = false → s.word_len = 0 ∧ cur = []
  hoob : s.oob = false
  hne : ∀ w ∈ done, w ≠ []

theorem Inv_init (command : List Char) :
    Inv [] [] command
      { words := List.replicate (count_words command + 1) none,
        count := 0, word_len := 0, in_word := false,
        start := [], nid := 1, allocd := [0], oob := false } := by
  refine ⟨?_, rfl, rfl, ?_, ?_, ?_, rfl, ?_⟩
  · simp [fillFrom, count_words]
  · show [0] = List.range 1
    decide
  · intro h; simp at h
  · intro _; exact ⟨rfl, rfl⟩
  · intro w hw; cases hw

/-- When the `malloc` inside `flush_word` succeeds, the invariant advances:
the current run is appended to `done`. -/
theorem flush_word_inv (alloc : Nat → Bool) (done : List (List Char))
    (cur : List Char) (rest : List Char) (s : ParseSt)
    (hI : Inv done cur rest s) (hin : s.in_word = true)
    (ha : alloc s.nid = true) :
    ∃ s', flush_word alloc s = some s' ∧
      s'.words = fillFrom 0 (done ++ [cur]) ++
        List.replicate (count_words_loop rest true 0 + 1) none ∧
      s'.count = done.length + 1 ∧ s'.word_len = 0 ∧ s'.in_word = false ∧
      s'.nid = done.length + 2 ∧ s'.allocd = List.range (done.length + 2) ∧
      s'.oob = false ∧ s'.start = s.start := by
  obtain ⟨hst, hwl, hcne⟩ := hI.hw_t hin
  have htake : s.start.take s.word_len = cur := by
    rw [hst, hwl]; exact List.take_left cur rest
  have hlen : s.words.length = done.length +
      ((if s.in_word then 1 else 0) + count_words_loop rest s.in_word 0 + 1) := by
    rw [hI.hwords]; simp [fillFrom_length]
  have hlt : s.count < s.words.length := by
    rw [hI.hcount, hlen]; omega
  have hfw : flush_word alloc s = some
      { s with
        words := s.words.set s.count (some (s.nid, s.start.take s.word_len)),
        count := s.count + 1, word_len := 0, in_word := false,
        nid := s.nid + 1, allocd := s.allocd ++ [s.nid] } := by
    simp [flush_word, ha, hlt]
  have hrepl : (if s.in_word then 1 else 0) + count_words_loop rest s.in_word 0 + 1 =
      count_words_loop rest true 0 + 1 + 1 := by
    rw [hin]; simp [Nat.add_comm]
  refine ⟨_, hfw, ?_, ?_, rfl, rfl, ?_, ?_, ?_, rfl⟩
  · simp only
    rw [hI.hwords, hI.hcount, htake, hrepl, List.replicate_succ,
      show done.length = (fillFrom 0 done).length from (fillFrom_length 0 done).symm,
      set_append_cons, fillFrom_snoc, hI.hnid]
    simp
  · simp [hI.hcount]
  · simp [hI.hnid]
  · simp only
    rw [hI.hallocd, hI.hnid]
    have h2 : List.range (done.length + 2) =
        List.range (done.length + 1) ++ [done.length + 1] := by
      simpa using List.range_succ (n := done.length + 1)
    rw [h2]
  · simp [hI.hoob]

theorem count_words_loop_space (rest : List Char) (b : Bool) :
    count_words_loop (' ' :: rest) b 0 = count_words_loop rest false 0 := by
  simp [count_words_loop]

theorem count_words_loop_nonspace_t (c : Char) (rest : List Char) (hc : c ≠ ' ') :
    count_words_loop (c :: rest) true 0 = count_words_loop rest true 0 := by
  simp [count_words_loop, hc]

theorem count_words_loop_nonspace_f (c : Char) (rest : List Char) (hc : c ≠ ' ') :
    count_words_loop (c :: rest) false 0 = count_words_loop rest true 0 + 1 := by
  simp only [count_words_loop, if_neg hc]
  exact count_words_loop_succ rest true 0

theorem repl_arg_congr (xs : List (Option (Nat × List Char))) {a b : Nat} (h : a = b) :
    xs ++ List.replicate a (none : Option (Nat × List Char)) =
      xs ++ List.replicate b none := by
  rw [h]

theorem isEmpty_false_of_ne_nil {cur : List Char} (h : cur ≠ []) :
    cur.isEmpty = false := by
  cases cur with
  | nil => exact absurd rfl h
  | cons x xs => rfl

/-- Main case analysis on the scanning loop: from any state satisfying the
invariant, the loop either exits normally in a state that again satisfies the
invariant (with the processed words related to the specification splitter),
or stops at an allocation failure in a state satisfying the invariant. -/
theorem parse_loop_cases (alloc : Nat → Bool) (rest : List Char) :
    ∀ done cur s, Inv done cur rest s →
      (∃ done' cur' s', parse_loop alloc rest s = .inl s' ∧ Inv done' cur' [] s' ∧
        done' ++ wordsAux [] cur' = done ++ wordsAux rest cur)
      ∨ (∃ done' cur' rest' s', parse_loop alloc rest s = .inr s' ∧
          Inv done' cur' rest' s') := by
  induction rest with
  | nil =>
    intro done cur s hI
    exact .inl ⟨done, cur, s, rfl, hI, rfl⟩
  | cons c rest' ih =>
    intro done cur s hI
    by_cases hc : c = ' '
    · subst hc
      cases hin : s.in_word with
      | false =>
        obtain ⟨hwl0, hcur⟩ := hI.hw_f hin
        have hstep : parse_loop alloc (' ' :: rest') s = parse_loop alloc rest' s := by
          simp [parse_loop, hin]
        have hI' : Inv done cur rest' s :=
          { hwords := by
              rw [hI.hwords, hin, count_words_loop_space]
            hcount := hI.hcount, hnid := hI.hnid, hallocd := hI.hallocd
            hw_t := fun h => absurd h (by rw [hin]; simp)
            hw_f := hI.hw_f, hoob := hI.hoob, hne := hI.hne }
        rcases ih done cur s hI' with ⟨d', c', s'', heq, hI'', hrel⟩ |
          ⟨d', c', r', s'', heq, hI''⟩
        · subst hcur
          exact .inl ⟨d', c', s'', by rw [hstep, heq], hI'',
            by rw [hrel]; simp [wordsAux]⟩
        · exact .inr ⟨d', c', r', s'', by rw [hstep, heq], hI''⟩
      | true =>
        obtain ⟨hst, hwl, hcne⟩ := hI.hw_t hin
        cases ha : alloc s.nid with
        | false =>
          have hfw : flush_word alloc s = none := by
            simp [flush_word, ha]
          have hstep : parse_loop alloc (' ' :: rest') s = .inr s := by
            simp [parse_loop, hin, hfw]
          exact .inr ⟨done, cur, ' ' :: rest', s, hstep, hI⟩
        | true =>
          obtain ⟨s', hfw, hw, hcnt, hwlz, hiw, hnid, hall, hoob, -⟩ :=
            flush_word_inv alloc done cur (' ' :: rest') s hI hin ha
          have hstep : parse_loop alloc (' ' :: rest') s = parse_loop alloc rest' s' := by
            simp [parse_loop, hin, hfw]
          have hI' : Inv (done ++ [cur]) [] rest' s' :=
            { hwords := by
                rw [hw, hiw, count_words_loop_space]
                exact repl_arg_congr _ (by simp)
              hcount := by simp [hcnt]
              hnid := by simp [hnid]
              hallocd := by simpa using hall
              hw_t := fun h => absurd h (by rw [hiw]; simp)
              hw_f := fun _ => ⟨hwlz, rfl⟩
              hoob := hoob
              hne := by
                intro w hwmem
                rcases List.mem_append.mp hwmem with h1 | h1
                · exact hI.hne w h1
                · rw [List.mem_singleton.mp h1]; exact hcne }
          rcases ih (done ++ [cur]) [] s' hI' with ⟨d', c', s'', heq, hI'', hrel⟩ |
            ⟨d', c', r', s'', heq, hI''⟩
          · refine .inl ⟨d', c', s'', by rw [hstep, heq], hI'', ?_⟩
            rw [hrel]
            simp [wordsAux, isEmpty_false_of_ne_nil hcne]
          · exact .inr ⟨d', c', r', s'', by rw [hstep, heq], hI''⟩
    · cases hin : s.in_word with
      | false =>
        obtain ⟨hwl0, hcur⟩ := hI.hw_f hin
        have hstep : parse_loop alloc (c :: rest') s = parse_loop alloc rest'
            { s with in_word := true, start := c :: rest',
                     word_len := s.word_len + 1 } := by
          simp [parse_loop, hc, hin]
        have hI' : Inv done [c] rest'
            { s with in_word := true, start := c :: rest',
                     word_len := s.word_len + 1 } :=
          { hwords := by
              simp only
              rw [hI.hwords, hin, count_words_loop_nonspace_f c rest' hc]
              exact repl_arg_congr _ (by simp; omega)
            hcount := hI.hcount, hnid := hI.hnid, hallocd := hI.hallocd
            hw_t := fun _ => ⟨rfl, by simp [hwl0], by simp⟩
            hw_f := fun h => by simp at h
            hoob := hI.hoob, hne := hI.hne }
        rcases ih done [c] _ hI' with ⟨d', c', s'', heq, hI'', hrel⟩ |
          ⟨d', c', r', s'', heq, hI''⟩
        · subst hcur
          exact .inl ⟨d', c', s'', by rw [hstep, heq], hI'',
            by rw [hrel]; simp [wordsAux, hc]⟩
        · exact .inr ⟨d', c', r', s'', by rw [hstep, heq], hI''⟩
      | true =>
        obtain ⟨hst, hwl, hcne⟩ := hI.hw_t hin
        have hstep : parse_loop alloc (c :: rest') s = parse_loop alloc rest'
            { s with word_len := s.word_len + 1 } := by
          simp [parse_loop, hc, hin]
        have hI' : Inv done (cur ++ [c]) rest' { s with word_len := s.word_len + 1 } :=
          { hwords := by
              simp only
              rw [hI.hwords, hin, count_words_loop_nonspace_t c rest' hc]
            hcount := hI.hcount, hnid := hI.hnid, hallocd := hI.hallocd
            hw_t := fun _ => ⟨by simp [hst], by simp [hwl], by simp⟩
            hw_f := fun h => by simp [hin] at h
            hoob := hI.hoob, hne := hI.hne }
        rcases ih done (cur ++ [c]) _ hI' with ⟨d', c', s'', heq, hI'', hrel⟩ |
          ⟨d', c', r', s'', heq, hI''⟩
        · refine .inl ⟨d', c', s'', by rw [hstep, heq], hI'', ?_⟩
          rw [hrel]
          simp [wordsAux, hc]
        · exact .inr ⟨d', c', r', s'', by rw [hstep, heq], hI''⟩

theorem wordsAux_length (s : List Char) :
    ∀ cur, (wordsAux s cur).length =
      count_words_loop s (!cur.isEmpty) 0 + (if cur.isEmpty then 0 else 1) := by
  induction s with
  | nil =>
    intro cur
    cases cur <;> simp [wordsAux, count_words_loop]
  | cons c rest ih =>
    intro cur
    by_cases hc : c = ' '
    · subst hc
      cases cur <;>
        simp [wordsAux, ih, count_words_loop_space, count_words_loop_succ]
    · cases cur <;>
        simp [wordsAux, hc, ih, count_words_loop_nonspace_f c rest hc,
          count_words_loop_nonspace_t c rest hc]

theorem wordsOf_length (line : List Char) :
    (wordsOf line).length = count_words line := by
  rw [wordsOf, count_words]
  simpa using wordsAux_length line []

theorem wordsAux_mem_ne_nil (s : List Char) :
    ∀ cur, ∀ w ∈ wordsAux s cur, w ≠ [] := by
  induction s with
  | nil =>
    intro cur w hw
    cases cur with
    | nil => simp [wordsAux] at hw
    | cons x xs =>
      simp [wordsAux] at hw
      simp [hw]
  | cons c rest ih =>
    intro cur w hw
    by_cases hc : c = ' '
    · subst hc
      cases cur with
      | nil =>
        simp [wordsAux] at hw
        exact ih [] w hw
      | cons x xs =>
        simp [wordsAux] at hw
        rcases hw with rfl | hw
        · simp
        · exact ih [] w hw
    · simp [wordsAux, hc] at hw
      exact ih (cur ++ [c]) w hw

theorem wordsAux_eq_nil_iff (s : List Char) :
    ∀ cur, wordsAux s cur = [] ↔ (cur = [] ∧ ∀ c ∈ s, c = ' ') := by
  induction s with
  | nil =>
    intro cur
    cases cur <;> simp [wordsAux]
  | cons c rest ih =>
    intro cur
    by_cases hc : c = ' '
    · subst hc
      cases cur with
      | nil => simp [wordsAux, ih []]
      | cons x xs => simp [wordsAux]
    · simp only [wordsAux, if_neg hc, ih (cur ++ [c])]
      simp [hc]

/-- In any state satisfying the invariant, the failure cleanup
(`free_array(words, count)` followed by `free(words)`) frees exactly the
allocations made so far: nothing stays live. -/
theorem Inv_cleanup (done : List (List Char)) (cur rest : List Char) (s : ParseSt)
    (hI : Inv done cur rest s) : live_after_cleanup s = [] := by
  have hfa : free_array_ids s.words s.count = (List.range done.length).map (· + 1) := by
    rw [hI.hcount]
    show (List.range done.length).filterMap _ = _
    apply filterMap_range_eq_map
    intro i hi
    have hflen : i < (fillFrom 0 done).length := by rw [fillFrom_length]; exact hi
    obtain ⟨w, -, hget⟩ := fillFrom_getElem? 0 done i hi
    rw [hI.hwords, List.getElem?_append_left hflen, hget]
    simp
  simp only [live_after_cleanup, hfa, hI.hallocd]
  rw [List.filter_eq_nil_iff]
  intro id hid
  have hlt : id < done.length + 1 := List.mem_range.mp hid
  have hmem : id ∈ (0 : Nat) :: (List.range done.length).map (· + 1) := by
    cases id with
    | zero => exact List.mem_cons_self _ _
    | succ j =>
      refine List.mem_cons_of_mem _ (List.mem_map.mpr ⟨j, ?_, rfl⟩)
      exact List.mem_range.mpr (by omega)
  simp [hmem]

theorem Inv_in_word_of_word_len (done : List (List Char)) (cur rest : List Char)
    (s : ParseSt) (hI : Inv done cur rest s) (h : s.word_len ≠ 0) :
    s.in_word = true := by
  cases hin : s.in_word with
  | false => exact absurd (hI.hw_f hin).1 h
  | true => rfl

/-- If `parse_command` fails (returns NULL), every allocation it made has
been freed by the time it returns: no leak and no partial word list. -/
theorem parse_command_none (alloc : Nat → Bool) (line : List Char)
    (h : (parse_command alloc line).1 = none) :
    (parse_command alloc line).2.1 = [] := by
  rcases halloc0 : alloc 0 with _ | _
  · rw [parse_command]; simp [halloc0]
  rcases parse_loop_cases alloc line [] [] _ (Inv_init line) with
    ⟨done', cur', s', heq, hI', -⟩ | ⟨d', c', r', s', heq, hI'⟩
  · rcases hwl : s'.word_len with _ | n
    · rw [parse_command] at h
      simp only [halloc0, if_pos rfl, heq, hwl] at h
      simp at h
    · rcases ha : alloc s'.nid with _ | _
      · have hfw : flush_word alloc s' = none := by simp [flush_word, ha]
        rw [parse_command]
        simp only [halloc0, if_pos rfl, heq, hwl, hfw]
        simp [Inv_cleanup done' cur' [] s' hI']
      · have hiw : s'.in_word = true :=
          Inv_in_word_of_word_len done' cur' [] s' hI' (by rw [hwl]; exact Nat.succ_ne_zero n)
        obtain ⟨s'', hfw, -⟩ := flush_word_inv alloc done' cur' [] s' hI' hiw ha
        rw [parse_command] at h
        simp only [halloc0, if_pos rfl, heq, hwl, hfw] at h
        simp at h
  · rw [parse_command]
    simp only [halloc0, if_pos rfl, heq]
    simp [Inv_cleanup d' c' r' s' hI']

/-- A successful `parse_command` returns exactly the maximal space-free runs
of the line, in order, followed by a single NULL slot; every allocation
(ids `0 … #tokens`) is still live (owned by the caller) and no out-of-bounds
write occurred. -/
theorem parse_command_some (alloc : Nat → Bool) (line : List Char)
    (arr : List (Option (Nat × List Char)))
    (h : (parse_command alloc line).1 = some arr) :
    arr = fillFrom 0 (wordsOf line) ++ [none] ∧
    (parse_command alloc line).2.1 = List.range ((wordsOf line).length + 1) ∧
    (parse_command alloc line).2.2 = false := by
  rcases halloc0 : alloc 0 with _ | _
  · rw [parse_command] at h
    simp [halloc0] at h
  rcases parse_loop_cases alloc line [] [] _ (Inv_init line) with
    ⟨done', cur', s', heq, hI', hrel⟩ | ⟨d', c', r', s', heq, hI'⟩
  swap
  · rw [parse_command] at h
    simp only [halloc0, if_pos rfl, heq] at h
    simp at h
  have hw0 : wordsOf line = done' ++ wordsAux [] cur' := by
    simpa [wordsOf] using hrel.symm
  rcases hwl : s'.word_len with _ | n
  · have hiw : s'.in_word = false := by
      by_contra hiw
      have := (hI'.hw_t (by revert hiw; cases s'.in_word <;> simp)).2.2
      have h2 := (hI'.hw_t (by revert hiw; cases s'.in_word <;> simp)).2.1
      rw [hwl] at h2
      exact this (List.length_eq_zero.mp h2.symm)
    have hcur : cur' = [] := (hI'.hw_f hiw).2
    have harr : (parse_command alloc line) = (some s'.words, s'.allocd, s'.oob) := by
      rw [parse_command]
      simp only [halloc0, if_pos rfl, heq, hwl]
      simp
    rw [harr] at h
    have harr2 : arr = s'.words := by simpa using h.symm
    have hwords := hI'.hwords
    rw [hiw] at hwords
    simp only [count_words_loop] at hwords
    refine ⟨?_, ?_, ?_⟩
    · rw [harr2, hwords, hw0, hcur]
      simp [wordsAux, List.replicate]
    · rw [harr]
      simp only
      rw [hI'.hallocd, hw0, hcur]
      simp [wordsAux]
    · rw [harr]
      exact hI'.hoob
  · have hiw : s'.in_word = true := by
      by_contra hiw
      have := (hI'.hw_f (by revert hiw; cases s'.in_word <;> simp)).1
      rw [hwl] at this
      exact Nat.succ_ne_zero n this
    have hcne : cur' ≠ [] := (hI'.hw_t hiw).2.2
    rcases ha : alloc s'.nid with _ | _
    · have hfw : flush_word alloc s' = none := by simp [flush_word, ha]
      rw [parse_command] at h
      simp only [halloc0, if_pos rfl, heq, hwl, hfw] at h
      simp at h
    · obtain ⟨s'', hfw, hw, hcnt, -, -, -, hall, hoob, -⟩ :=
        flush_word_inv alloc done' cur' [] s' hI' hiw ha
      have harr : (parse_command alloc line) = (some s''.words, s''.allocd, s''.oob) := by
        rw [parse_command]
        simp only [halloc0, if_pos rfl, heq, hwl, hfw]
        simp
      rw [harr] at h
      have harr2 : arr = s''.words := by simpa using h.symm
      refine ⟨?_, ?_, ?_⟩
      · rw [harr2, hw, hw0]
        simp [wordsAux, isEmpty_false_of_ne_nil hcne, count_words_loop, List.replicate]
      · rw [harr]
        simp only
        rw [hall, hw0]
        simp [wordsAux, isEmpty_false_of_ne_nil hcne]
      · rw [harr]
        exact hoob

theorem flush_word_allocTrue (s : ParseSt) :
    ∃ s', flush_word allocTrue s = some s' := by
  by_cases h : s.count < s.words.length <;> simp [flush_word, allocTrue, h]

theorem parse_loop_allocTrue (rest : List Char) :
    ∀ s, ∃ s', parse_loop allocTrue rest s = .inl s' := by
  induction rest with
  | nil => intro s; exact ⟨s, rfl⟩
  | cons c rest' ih =>
    intro s
    by_cases hc : c = ' '
    · cases hin : s.in_word with
      | false =>
        obtain ⟨s', hs'⟩ := ih s
        exact ⟨s', by simp [parse_loop, hc, hin, hs']⟩
      | true =>
        obtain ⟨s₂, hfw⟩ := flush_word_allocTrue s
        obtain ⟨s', hs'⟩ := ih s₂
        exact ⟨s', by simp [parse_loop, hc, hin, hfw, hs']⟩
    · cases hin : s.in_word with
      | false =>
        obtain ⟨s', hs'⟩ := ih
          { s with in_word := true, start := c :: rest', word_len := s.word_len + 1 }
        exact ⟨s', by simp [parse_loop, hc, hin, hs']⟩
      | true =>
        obtain ⟨s', hs'⟩ := ih { s with word_len := s.word_len + 1 }
        rw [hin] at hs'
        exact ⟨s', by simp [parse_loop, hc, hin, hs']⟩

/-- With every allocation succeeding, `parse_command` succeeds. -/
theorem parse_command_allocTrue_some (line : List Char) :
    ∃ arr, (parse_command allocTrue line).1 = some arr := by
  obtain ⟨s', hs'⟩ := parse_loop_allocTrue line
    { words := List.replicate (count_words line + 1) none,
      count := 0, word_len := 0, in_word := false,
      start := [], nid := 1, allocd := [0], oob := false }
  rcases hwl : s'.word_len with _ | n
  · refine ⟨s'.words, ?_⟩
    rw [parse_command]
    simp only [allocTrue, if_pos rfl, hs', hwl]
    simp
  · obtain ⟨s'', hfw⟩ := flush_word_allocTrue s'
    refine ⟨s''.words, ?_⟩
    rw [parse_command]
    simp only [allocTrue, if_pos rfl, hs', hwl, hfw]
    simp

theorem getElem?_after_fill (ts : List (List Char)) :
    (fillFrom 0 ts ++ [none])[ts.length]? = some none := by
  have h : (fillFrom 0 ts).length ≤ ts.length := by rw [fillFrom_length]
  rw [List.getElem?_append_right h, fillFrom_length]
  simp

/-- C1: on a line with every allocation succeeding, `parse_command` returns
the `count_words(line)` maximal space-free runs of the line, in order, each
non-empty, with a NULL entry in the slot immediately after the last token. -/
theorem C1_parse_command_tokenizes (line : List Char) (hne : line ≠ []) :
    ∃ arr, (parse_command allocTrue line).1 = some arr ∧
      tokensOf arr = wordsOf line ∧
      (tokensOf arr).length = count_words line ∧
      (∀ w ∈ tokensOf arr, w ≠ []) ∧
      arr[(tokensOf arr).length]? = some none := by
  obtain ⟨arr, harr⟩ := parse_command_allocTrue_some line
  obtain ⟨hstruct, -, -⟩ := parse_command_some allocTrue line arr harr
  have htok : tokensOf arr = wordsOf line := by
    rw [hstruct]; exact tokensOf_fillFrom 0 (wordsOf line) []
  refine ⟨arr, harr, htok, ?_, ?_, ?_⟩
  · rw [htok]; exact wordsOf_length line
  · rw [htok]; exact wordsAux_mem_ne_nil line []
  · rw [htok, hstruct]; exact getElem?_after_fill (wordsOf line)

theorem C1_parse_command_tokenizes_witness :
    ∃ arr, (parse_command allocTrue ['a', 'b', ' ', 'c']).1 = some arr ∧
      tokensOf arr = wordsOf ['a', 'b', ' ', 'c'] ∧
      (tokensOf arr).length = count_words ['a', 'b', ' ', 'c'] ∧
      (∀ w ∈ tokensOf arr, w ≠ []) ∧
      arr[(tokensOf arr).length]? = some none :=
  C1_parse_command_tokenizes ['a', 'b', ' ', 'c'] (by decide)

/-- C6 counterexample: the line `" "` is non-empty, yet the Word List
`parse_command` returns for it has zero elements. -/
theorem C6_counterexample_space_line :
    ([' '] : List Char) ≠ [] ∧
      (parse_command allocTrue [' ']).1.map tokensOf = some [] := by
  decide

/-- C6 amended: any successfully produced Word List has no length-zero
element, and it has at least one element whenever the source line contains at
least one non-space character (a non-empty all-space line yields zero
elements). -/
theorem C6_word_list_elements (alloc : Nat → Bool) (line : List Char)
    (arr : List (Option (Nat × List Char)))
    (hs : (parse_command alloc line).1 = some arr) :
    (∀ w ∈ tokensOf arr, w ≠ []) ∧
      ((∃ c ∈ line, c ≠ ' ') → tokensOf arr ≠ []) := by
  obtain ⟨hstruct, -, -⟩ := parse_command_some alloc line arr hs
  have htok : tokensOf arr = wordsOf line := by
    rw [hstruct]; exact tokensOf_fillFrom 0 (wordsOf line) []
  constructor
  · rw [htok]; exact wordsAux_mem_ne_nil line []
  · rintro ⟨c, hcmem, hcne⟩ hnil
    rw [htok, wordsOf] at hnil
    exact hcne (((wordsAux_eq_nil_iff line []).mp hnil).2 c hcmem)

theorem C6_word_list_elements_witness :
    (∀ w ∈ tokensOf (fillFrom 0 [['h', 'i']] ++ [none]), w ≠ []) ∧
      ((∃ c ∈ [' ', 'h', 'i'], c ≠ ' ') →
        tokensOf (fillFrom 0 [['h', 'i']] ++ [none]) ≠ []) :=
  C6_word_list_elements allocTrue [' ', 'h', 'i'] (fillFrom 0 [['h', 'i']] ++ [none])
    (by decide)

/-- C8: whenever `parse_command` fails (returns NULL), every word it had
allocated and the array itself have been freed on return — no allocation is
live and no partial Word List escapes. -/
theorem C8_parse_command_failure_no_leak (alloc : Nat → Bool) (line : List Char)
    (h : (parse_command alloc line).1 = none) :
    (parse_command alloc line).2.1 = [] :=
  parse_command_none alloc line h

theorem C8_parse_command_failure_no_leak_witness :
    (parse_command (fun n => n != 2) ['a', ' ', 'b']).2.1 = [] :=
  C8_parse_command_failure_no_leak (fun n => n != 2) ['a', ' ', 'b'] (by decide)

/-- `EXECUTABLE_PATH_START` from `shell.c` (without the terminating NULL,
which the embedding expresses by the end of the list). -/
def EXECUTABLE_PATH_START : List (List Char) :=
  [['.', '/'], ['.', '.', '/'], ['/']]

/-- The inner loop of `is_executable`: walks `command` and one table entry in
lockstep; returns `TRUE` from inside the loop when the table entry is
exhausted while the command still has characters; leaves the loop (and falls
through to the next entry) when the command is exhausted or a character
mismatches. -/
def scan_path_start : List Char → List Char → Bool
  | [], _ => false
  | _ :: _, [] => true
  | c :: cs, p :: ps => if p = c then scan_path_start cs ps else false

/-- The outer loop of `is_executable`: tries each table entry in order. -/
def is_exec_loop : List (List Char) → List Char → Bool
  | [], _ => false
  | p :: ps, command =>
    if scan_path_start command p then true else is_exec_loop ps command

/-- `is_executable(command)` from `shell.c`. -/
def is_executable (command : List Char) : Bool :=
  is_exec_loop EXECUTABLE_PATH_START command

theorem scan_path_start_iff (w p : List Char) :
    scan_path_start w p = true ↔ ∃ r, r ≠ [] ∧ w = p ++ r := by
  induction w generalizing p with
  | nil =>
    rw [show scan_path_start [] p = false from rfl]
    simp only [Bool.false_eq_true, false_iff]
    rintro ⟨r, hr, hw⟩
    rcases List.append_eq_nil.mp hw.symm with ⟨-, hr2⟩
    exact hr hr2
  | cons c cs ih =>
    cases p with
    | nil =>
      rw [show scan_path_start (c :: cs) [] = true from rfl]
      constructor
      · intro _; exact ⟨c :: cs, by simp, by simp⟩
      · intro _; rfl
    | cons q qs =>
      by_cases hq : c = q
      · subst hq
        rw [show scan_path_start (c :: cs) (c :: qs) = scan_path_start cs qs from by
          simp [scan_path_start]]
        rw [ih qs]
        constructor
        · rintro ⟨r, hr, hw⟩
          exact ⟨r, hr, by simp [hw]⟩
        · rintro ⟨r, hr, hw⟩
          simp only [List.cons_append, List.cons.injEq] at hw
          exact ⟨r, hr, hw.2⟩
      · have hq2 : ¬ q = c := fun h => hq h.symm
        rw [show scan_path_start (c :: cs) (q :: qs) = false from by
          simp only [scan_path_start, if_neg hq2]]
        simp only [Bool.false_eq_true, false_iff]
        rintro ⟨r, hr, hw⟩
        simp only [List.cons_append, List.cons.injEq] at hw
        exact hq hw.1

theorem is_exec_loop_iff (ps : List (List Char)) (w : List Char) :
    is_exec_loop ps w = true ↔ ∃ p ∈ ps, ∃ r, r ≠ [] ∧ w = p ++ r := by
  induction ps with
  | nil => simp [is_exec_loop]
  | cons p ps ih =>
    simp only [is_exec_loop]
    by_cases hp : scan_path_start w p = true
    · simp only [if_pos hp, true_iff]
      obtain ⟨r, hr, hw⟩ := (scan_path_start_iff w p).mp hp
      exact ⟨p, by simp, r, hr, hw⟩
    · rw [if_neg (by simpa using hp), ih]
      constructor
      · rintro ⟨q, hq, r, hr, hw⟩
        exact ⟨q, by simp [hq], r, hr, hw⟩
      · rintro ⟨q, hq, r, hr, hw⟩
        rcases List.mem_cons.mp hq with rfl | hq
        · exact absurd ((scan_path_start_iff w q).mpr ⟨r, hr, hw⟩) hp
        · exact ⟨q, hq, r, hr, hw⟩

/-- C2 counterexample: the word `"/"` begins with the table entry `"/"`,
yet `is_executable` classifies it as a builtin, because the inner loop only
reports a match when the word strictly extends the entry. -/
theorem C2_counterexample_slash :
    is_executable ['/'] = false ∧ (['/'] : List Char) ∈ EXECUTABLE_PATH_START ∧
      (['/'] : List Char).take (['/'] : List Char).length = ['/'] := by
  decide

/-- C2 amended: `is_executable(w)` is true iff `w` begins with one of the
table entries `"./"`, `"../"`, `"/"` and is strictly longer than that entry;
the five sample classifications from the specification hold. -/
theorem C2_is_executable_characterization :
    (∀ w, is_executable w = true ↔
      ∃ p ∈ EXECUTABLE_PATH_START, ∃ r, r ≠ [] ∧ w = p ++ r) ∧
    is_executable "./foo".toList = true ∧
    is_executable "../foo".toList = true ∧
    is_executable "/foo".toList = true ∧
    is_executable "foo".toList = false ∧
    is_executable "cd".toList = false := by
  refine ⟨fun w => is_exec_loop_iff EXECUTABLE_PATH_START w, ?_, ?_, ?_, ?_, ?_⟩ <;> decide

/-- The smallest 32-bit `int`. -/
def INT_MIN : Int := -(2 ^ 31)

/-- C `int` negation (`num = -num`) with 32-bit two's-complement wrap-around:
negating `INT_MIN` yields `INT_MIN` again. -/
def c_neg (n : Int) : Int := if n = INT_MIN then INT_MIN else -n

/-- The digit-counting loop of `int_to_string`
(`while (num_copy > 0) { num_copy /= 10; i++; }`), written with an explicit
iteration bound (`fuel`): since the value shrinks by a factor of 10 each
step, `fuel = n` always suffices. -/
def numDigitsF : Nat → Nat → Nat
  | _, 0 => 0
  | 0, _ + 1 => 0
  | fuel + 1, n + 1 => numDigitsF fuel ((n + 1) / 10) + 1

def numDigits (n : Nat) : Nat := numDigitsF n n

/-- The digit-writing loop of `int_to_string`
(`while (num > 0) { i--; buffer[i] = '0' + num % 10; num /= 10; }`): emits
the store `(i - 1, '0' + n % 10)` and continues with `n / 10` at `i - 1`.
Same explicit iteration bound as `numDigitsF`. -/
def writeDigitsF : Nat → Nat → Nat → List (Nat × Char)
  | _, 0, _ => []
  | 0, _ + 1, _ => []
  | fuel + 1, n + 1, i =>
    (i - 1, Char.ofNat (48 + (n + 1) % 10)) :: writeDigitsF fuel ((n + 1) / 10) (i - 1)

def writeDigits (n : Nat) (i : Nat) : List (Nat × Char) := writeDigitsF n n i

/-- `int_to_string(num, buffer)` from `helpers.c`, as the chronological list
of `(index, byte)` stores it performs into `buffer`: the `'0'` fast path, the
optional sign, the terminator at index `i`, then the digits at descending
indices. -/
def int_to_string_writes (num : Int) : List (Nat × Char) :=
  if num = 0 then [(0, '0'), (1, Char.ofNat 0)]
  else
    let sign : List (Nat × Char) := if num < 0 then [(0, '-')] else []
    let mag : Nat := (if num < 0 then c_neg num else num).toNat
    let i : Nat := (if num < 0 then 1 else 0) + numDigits mag
    sign ++ [(i, Char.ofNat 0)] ++ writeDigits mag i

/-- The decimal digits of `n`, most significant first (the net effect of the
digit-writing loop on the buffer), with the same iteration bound. -/
def digitsOfF : Nat → Nat → List Char
  | _, 0 => []
  | 0, _ + 1 => []
  | fuel + 1, n + 1 => digitsOfF fuel ((n + 1) / 10) ++ [Char.ofNat (48 + (n + 1) % 10)]

def digitsOf (n : Nat) : List Char := digitsOfF n n

/-- The buffer contents (before the terminator) that `int_to_string(num, _)`
leaves behind. -/
def int_to_string_chars (num : Int) : List Char :=
  if num = 0 then ['0']
  else if num < 0 then '-' :: digitsOf (c_neg num).toNat
  else digitsOf num.toNat

/-- C5: on `num = -1000000000` (a perfectly representable 32-bit `int`),
`int_to_string` performs 12 stores — sign, terminator and ten digits —
and the terminator lands at index 11, one past the end of the 11-byte buffer
the function documents as sufficient (`MAX_INT_STRLEN`); moreover on
`INT_MIN` the wrapped negation leaves the loops with a negative value and the
function stores only `"-"`. -/
theorem C5_int_to_string_overflows_11_bytes :
    (int_to_string_writes (-1000000000)).length = 12 ∧
    (11, Char.ofNat 0) ∈ int_to_string_writes (-1000000000) ∧
    int_to_string_writes INT_MIN = [(0, '-'), (1, Char.ofNat 0)] := by
  refine ⟨by decide, by decide, by decide⟩

/-- State of the `getline` loop from `helpers.c`.  `buf` holds the bytes
stored so far (index `i` of the heap buffer), `len` the current capacity,
`current` the cursor.  `echoed` collects the bytes written to the display,
`accesses` the index `current - bytes_read` used by each loop-termination
test (as a mathematical integer: in C it is computed in `size_t`, so a
negative value here denotes the huge wrapped-around index), and `oob`
records whether any termination test read outside `[0, len)`. -/
structure GetlineSt where
  buf : List Char
  len : Nat
  current : Nat
  echoed : List Char
  accesses : List Int
  oob : Bool
  deriving Repr, DecidableEq

/-- A store to `buf[i]`; `getline` only ever stores at `i ≤ buf.length`. -/
def writeAt (buf : List Char) (i : Nat) (c : Char) : List Char :=
  if i < buf.length then buf.set i c else buf ++ [c]

/-- One-byte-at-a-time loop of `getline`: doubling `realloc` (assumed to
succeed), `read` of one byte (the next element of `input`; `none` when the
input is exhausted before a newline — in C the shell would keep blocking on
`read`), backspace handling, echo, and the `buffer[current - bytes_read]`
termination test.  An out-of-bounds termination test reads unknown memory;
the model returns no byte for it (never `'\n'`), and records the access. -/
def getline_loop : List Char → GetlineSt → Option (List Char × GetlineSt)
  | [], _ => none
  | c :: input, st =>
    let st1 := if st.current = st.len - 1 then { st with len := st.len * 2 } else st
    let st2 := { st1 with buf := writeAt st1.buf st1.current c }
    let st3 :=
      if c = Char.ofNat 8 then
        if st2.current > 0 then
          { st2 with echoed := st2.echoed ++ [Char.ofNat 8, ' ', Char.ofNat 8],
                     current := st2.current - 1 }
        else st2
      else
        { st2 with echoed := st2.echoed ++ [c], current := st2.current + 1 }
    let idx : Int := (st3.current : Int) - 1
    let st4 := { st3 with accesses := st3.accesses ++ [idx],
                          oob := st3.oob || !(decide (0 ≤ idx) && decide (idx < (st3.len : Int))) }
    let v : Option Char := if 0 ≤ idx then st4.buf[idx.toNat]? else none
    if v = some '\n' then
      some (st4.buf.take idx.toNat,
        { st4 with buf := writeAt st4.buf idx.toNat (Char.ofNat 0) })
    else
      getline_loop input st4

/-- `getline()` from `helpers.c`, run on the byte stream `input`, with every
allocation succeeding.  Returns the line handed to the caller together with
the final loop state. -/
def getline (input : List Char) : Option (List Char × GetlineSt) :=
  getline_loop input
    { buf := [], len := 1, current := 0, echoed := [], accesses := [], oob := false }

/-- C7: a backspace received at cursor position 0 leaves the cursor at 0 and
echoes nothing — but the loop-termination test that follows it computes the
index `current - bytes_read = 0 - 1` in `size_t` and reads far outside the
buffer: on the stream `"\b\n"` the test indices are `[-1, 0]` and the
out-of-bounds flag is set, while the returned line is empty. -/
theorem C7_getline_backspace_at_zero_oob :
    (getline [Char.ofNat 8, '\n']).map
        (fun r => (r.1, r.2.oob, r.2.accesses, r.2.current, r.2.echoed))
      = some ([], true, [-1, 0], 1, ['\n']) := by
  decide

/-- `handle_builtin(argv)` from `shell.c`: the sequence of `print_str` calls
it performs, given the outcome of `chdir` (`chdirOk = true` for 0). -/
def handle_builtin (chdirOk : Bool) (argv0 : List Char) (argv1 : Option (List Char)) :
    List (List Char) :=
  if argv0 = "cd".toList then
    match argv1 with
    | none => ["YehudaSH: cd: No target parameter".toList]
    | some target =>
      if chdirOk then []
      else ["YehudaSH: cd: ".toList, target, ": No such file or directory".toList]
  else
    ["YehudaSH: ".toList, argv0, ": command not found".toList]

/-- `handle_executable(argv)` from `shell.c`: returns the sequence of
`print_str` calls and the list of pids passed to `waitpid`, given the results
of `exec` (`execRes`, -1 for failure) and of `waitpid` (`waitRes`, `none`
when it returns -1, `some code` when it stores exit code `code`). -/
def handle_executable (execRes : Int) (waitRes : Option Int) (argv0 : List Char) :
    List (List Char) × List Int :=
  if execRes = -1 then
    (["YehudaSH: execution of ".toList, argv0, "has failed\n".toList], [])
  else
    match waitRes with
    | none =>
      (["Failed to retrieve the exit code of ".toList, argv0, "\n".toList], [execRes])
    | some exitcode =>
      ([argv0, " has exited with exit code ".toList, int_to_string_chars exitcode,
        "\n".toList], [execRes])

/-- Heap objects whose lifetime `handle_command` manages: the directory-name
buffer, the line buffer from `getline`, and the allocations of
`parse_command` (by their parse allocation ids: 0 the array, `k ≥ 1` the
words). -/
inductive HAlloc where
  | dirBuf : HAlloc
  | lineBuf : HAlloc
  | parseAlloc : Nat → HAlloc
  deriving Repr, DecidableEq

/-- Results of the kernel-backed calls one `handle_command` iteration can
make: `get_current_dir_name`, `getline`, the tokenizer's allocations, `exec`,
`waitpid` and `chdir`. -/
structure ShellOracles where
  dir : Option (List Char)
  line : Option (List Char)
  alloc : Nat → Bool
  execRes : Int
  waitRes : Option Int
  chdirOk : Bool

/-- Observable outcome of one `handle_command` call: its boolean return, the
`print_str` calls, the allocations it owns that are still live on return,
whether a NULL pointer was dereferenced, and the pids waited on. -/
structure ShellResult where
  ok : Bool
  out : List (List Char)
  live : List HAlloc
  crash : Bool
  waitCalls : List Int
  deriving Repr, DecidableEq

/-- The word-freeing loop at the end of `handle_command`
(`while (*current != NULL) { free(*current); current++; }`): the parse
allocation ids it frees. -/
def free_words_loop : List (Option (Nat × List Char)) → List Nat
  | [] => []
  | none :: _ => []
  | some (id, _) :: rest => id :: free_words_loop rest

/-- `handle_command()` from `shell.c`.  Failure paths: a NULL working
directory, a NULL `getline` result, and a NULL `parse_command` result — on
the last of these the line buffer is *not* freed before returning.  On the
dispatch path, `command_args[0]` is passed to `is_executable`, which begins
by dereferencing it: a NULL first entry (line with no words) is a NULL
dereference, recorded as `crash`. -/
def handle_command (o : ShellOracles) : ShellResult :=
  match o.dir with
  | none => { ok := false, out := [], live := [], crash := false, waitCalls := [] }
  | some dir =>
    let out0 := ["[YehudaSH] ".toList, dir, " $ ".toList]
    match o.line with
    | none => { ok := false, out := out0, live := [], crash := false, waitCalls := [] }
    | some command =>
      match parse_command o.alloc command with
      | (none, plive, _) =>
        { ok := false, out := out0,
          live := HAlloc.lineBuf :: plive.map HAlloc.parseAlloc,
          crash := false, waitCalls := [] }
      | (some words, plive, _) =>
        match words[0]? with
        | none =>
          { ok := false, out := out0, live := plive.map HAlloc.parseAlloc,
            crash := true, waitCalls := [] }
        | some none =>
          { ok := false, out := out0, live := plive.map HAlloc.parseAlloc,
            crash := true, waitCalls := [] }
        | some (some (_, argv0)) =>
          let argv1 : Option (List Char) :=
            match words[1]? with
            | some (some (_, w)) => some w
            | _ => none
          let step :=
            if is_executable argv0 then
              handle_executable o.execRes o.waitRes argv0
            else
              (handle_builtin o.chdirOk argv0 argv1, [])
          let freed := 0 :: free_words_loop words
          { ok := true, out := out0 ++ step.1,
            live := (plive.filter fun id => ¬ freed.contains id).map HAlloc.parseAlloc,
            crash := false, waitCalls := step.2 }

/-- One iteration of `main`'s loop: run `handle_command`, and print the
allocation-failure message when it returns `FALSE`. -/
def shell_loop_iteration (o : ShellOracles) : ShellResult × List (List Char) :=
  let r := handle_command o
  (r, r.out ++ if r.ok then [] else ["YehudaSH: Allocating memory has failed.\n".toList])

/-- C9: if `exec` fails (-1), `handle_executable` prints the execution
failure message naming `argv[0]` and never calls `waitpid`; otherwise it
calls `waitpid` exactly once, on the returned pid, and prints either the
retrieved exit status or the retrieval-failure message naming `argv[0]`. -/
theorem C9_handle_executable_contract (execRes : Int) (waitRes : Option Int)
    (argv0 : List Char) :
    (handle_executable execRes waitRes argv0).2
        = (if execRes = -1 then [] else [execRes]) ∧
    (handle_executable execRes waitRes argv0).1
        = (if execRes = -1 then
            ["YehudaSH: execution of ".toList, argv0, "has failed\n".toList]
          else
            match waitRes with
            | none =>
              ["Failed to retrieve the exit code of ".toList, argv0, "\n".toList]
            | some code =>
              [argv0, " has exited with exit code ".toList,
               int_to_string_chars code, "\n".toList]) ∧
    argv0 ∈ (handle_executable execRes waitRes argv0).1 := by
  by_cases h : execRes = -1
  · simp [handle_executable, h]
  · cases waitRes <;> simp [handle_executable, h]

/-- C10: when `get_current_dir_name` fails, `handle_command` returns `FALSE`
immediately — no prompt, no read, no tokenization, no dispatch, nothing
left live — and the main loop prints the allocation-failure message. -/
theorem C10_dir_failure_reported (o : ShellOracles) (h : o.dir = none) :
    handle_command o =
      { ok := false, out := [], live := [], crash := false, waitCalls := [] } ∧
    (shell_loop_iteration o).2
      = ["YehudaSH: Allocating memory has failed.\n".toList] := by
  have h1 : handle_command o =
      { ok := false, out := [], live := [], crash := false, waitCalls := [] } := by
    rw [handle_command, h]
  refine ⟨h1, ?_⟩
  rw [shell_loop_iteration]
  rw [h1]
  simp

theorem C10_dir_failure_reported_witness :
    handle_command ⟨none, none, allocTrue, 0, none, true⟩ =
      { ok := false, out := [], live := [], crash := false, waitCalls := [] } ∧
    (shell_loop_iteration ⟨none, none, allocTrue, 0, none, true⟩).2
      = ["YehudaSH: Allocating memory has failed.\n".toList] :=
  C10_dir_failure_reported ⟨none, none, allocTrue, 0, none, true⟩ rfl

/-- C3 failing input: an empty input line (or an all-space line) tokenizes to
a Word List whose first entry is NULL, and the dispatch passes that NULL to
`is_executable`, which dereferences it — `handle_command` does not make it
back to the prompt loop. -/
theorem C3_empty_line_null_deref :
    (handle_command ⟨some ['/'], some [], allocTrue, 0, none, true⟩).crash = true ∧
    (handle_command ⟨some ['/'], some [' '], allocTrue, 0, none, true⟩).crash = true := by
  decide

/-- C4 failing input: when `parse_command` fails after a successful
`getline`, `handle_command` returns without freeing the line buffer — it is
still live on return (the tokenizer's own allocations are all freed). -/
theorem C4_line_buffer_leak_on_parse_failure :
    (handle_command ⟨some ['/'], some ['a'], (fun n => n != 1), 0, none, true⟩).ok
        = false ∧
    (handle_command ⟨some ['/'], some ['a'], (fun n => n != 1), 0, none, true⟩).live
        = [HAlloc.lineBuf] := by
  decide

end YehudaOS
